import Mathlib

/-!
Verification development for the hotshot screenshot tool.

The TypeScript/Svelte UI layer (`$lib/api`, `CaptureMenu.svelte`,
`Canvas.svelte`, the Svelte stores) is embedded shallowly below: pure
functions become Lean functions, the Tauri `invoke` payloads become an
explicit `InvokeCall` record, and the capture flow's store mutations become
explicit state passing on `UIState`.  Components of the Rust core
(`hotshot-core`'s metadata store and monitor resolution) are not part of the
frontend sources; where a claim depends on them they are modelled from the
specification and marked `Modelled from the spec:` in their doc comments.
-/

/-- The `Metadata` record from `$lib/types` (sidecar schema): id, path
relative to the storage root, RFC3339 timestamp, dimensions, format,
capture mode, display server, file size, tags and notes. -/
structure Metadata where
  id : String
  path : String
  timestamp : String
  width : Int
  height : Int
  format : String
  capture_mode : String
  display_server : String
  file_size : Int
  tags : List String
  notes : String
deriving DecidableEq

/-- The `Monitor` record from `$lib/types`: name plus origin and size. -/
structure Monitor where
  name : String
  x : Int
  y : Int
  width : Int
  height : Int
deriving DecidableEq

/-- A JSON argument value in a Tauri `invoke` payload.  `absent` models a
JavaScript `undefined` field (an optional parameter that was not passed). -/
inductive JsonArg where
  | str : String → JsonArg
  | boolVal : Bool → JsonArg
  | numVal : Int → JsonArg
  | strList : List String → JsonArg
  | absent : JsonArg
deriving DecidableEq

/-- An `invoke(cmd, args)` call as issued by `$lib/api`: the backend command
name together with the argument object, field order as written in the
source. -/
structure InvokeCall where
  cmd : String
  args : List (String × JsonArg)
deriving DecidableEq

/-- An optional string argument: `undefined` when absent. -/
def optStrArg : Option String → JsonArg
  | some s => .str s
  | none => .absent

/-- An optional number argument: `undefined` when absent. -/
def optNatArg : Option Nat → JsonArg
  | some n => .numVal n
  | none => .absent

/-- `captureFullscreen(display?, copyToClipboard?)` from `$lib/api`:
invokes `capture_fullscreen` with the display and the clipboard flag
defaulted to `true`; resolves to a `Metadata` record. -/
def captureFullscreen (display : Option String) (copyToClipboard : Option Bool) : InvokeCall :=
  { cmd := "capture_fullscreen"
    args := [("display", optStrArg display),
             ("copyToClipboard", JsonArg.boolVal (copyToClipboard.getD true))] }

/-- `captureRegion(display?, copyToClipboard?)` from `$lib/api`: invokes
`capture_region` with the display and the clipboard flag defaulted to
`true`; resolves to a `Metadata` record. -/
def captureRegion (display : Option String) (copyToClipboard : Option Bool) : InvokeCall :=
  { cmd := "capture_region"
    args := [("display", optStrArg display),
             ("copyToClipboard", JsonArg.boolVal (copyToClipboard.getD true))] }

/-- `captureWindow(copyToClipboard?)` from `$lib/api`. -/
def captureWindow (copyToClipboard : Option Bool) : InvokeCall :=
  { cmd := "capture_window"
    args := [("copyToClipboard", JsonArg.boolVal (copyToClipboard.getD true))] }

/-- `listScreenshots(limit?)` from `$lib/api`. -/
def listScreenshotsCall (limit : Option Nat) : InvokeCall :=
  { cmd := "list_screenshots", args := [("limit", optNatArg limit)] }

/-- `imageUrl(path)` from `$lib/api`: the template literal
`hotshot://localhost/<path>`. -/
def imageUrl (path : String) : String :=
  "hotshot://localhost/" ++ path

/-- Split a character list into `/`-separated path segments. -/
def splitSegs : List Char → List (List Char)
  | [] => [[]]
  | c :: rest =>
    let r := splitSegs rest
    if c = '/' then [] :: r
    else
      match r with
      | [] => [[c]]
      | seg :: rest' => (c :: seg) :: rest'

/-- Whether a path contains a `..` segment. -/
def hasDotDotSegment (p : String) : Bool :=
  decide (['.', '.'] ∈ splitSegs p.data)

/-- UI store state touched by the capture flow in `CaptureMenu.svelte`:
the local `open` flag of the menu plus the `isLoading`,
`currentScreenshot`, `currentImageSrc` and gallery `screenshots` stores. -/
structure UIState where
  menuOpen : Bool
  isLoading : Bool
  currentScreenshot : Option Metadata
  currentImageSrc : String
  screenshots : List Metadata
deriving DecidableEq

/-- `doCapture(fn)` from `CaptureMenu.svelte`.  The two awaited promises
(`fn()` and the gallery refresh `listScreenshots()`) are passed as explicit
`Except` outcomes.  The function is total: the `try`/`catch` swallows a
rejection of either promise (only logging it), and the `finally` clears
`isLoading`, so no exception propagates to the caller. -/
def doCapture {ε : Type} (s : UIState) (fnResult : Except ε Metadata)
    (refreshResult : Except ε (List Metadata)) : UIState :=
  let s₀ := { s with menuOpen := false, isLoading := true }
  let s₁ :=
    match fnResult with
    | .ok meta =>
      let s₂ := { s₀ with currentScreenshot := some meta
                          currentImageSrc := imageUrl meta.path }
      match refreshResult with
      | .ok l => { s₂ with screenshots := l }
      | .error _ => s₂
    | .error _ => s₀
  { s₁ with isLoading := false }

/-- The per-monitor entries of the capture menu: `{#each monitors as
monitor, i}` issues `captureFullscreen(String(i))` for the `i`-th monitor. -/
def monitorCaptureEntries (monitors : List Monitor) : List InvokeCall :=
  monitors.enum.map (fun e => captureFullscreen (some (toString e.1)) none)

/-- The `scale` derived value from `Canvas.svelte`: `1` when any dimension
is zero (falsy), otherwise `Math.min(sx, sy, 1)` for the container/natural
ratios.  Container dimensions are rationals, natural image dimensions are
integers. -/
def scale (containerWidth containerHeight : ℚ) (imageNatW imageNatH : ℕ) : ℚ :=
  if imageNatW = 0 ∨ imageNatH = 0 ∨ containerWidth = 0 ∨ containerHeight = 0 then 1
  else min (min (containerWidth / imageNatW) (containerHeight / imageNatH)) 1

/-- `displayW` from `Canvas.svelte`: `Math.round(imageNatW * scale)`. -/
def displayW (containerWidth containerHeight : ℚ) (imageNatW imageNatH : ℕ) : ℤ :=
  round ((imageNatW : ℚ) * scale containerWidth containerHeight imageNatW imageNatH)

/-- `displayH` from `Canvas.svelte`: `Math.round(imageNatH * scale)`. -/
def displayH (containerWidth containerHeight : ℚ) (imageNatW imageNatH : ℕ) : ℤ :=
  round ((imageNatH : ℚ) * scale containerWidth containerHeight imageNatW imageNatH)

/-- C1 counterexample: the region request shape exposed by `$lib/api` takes
exactly a `display` and a `copyToClipboard` argument; no
`explicit_geometry` (under any of its plausible spellings) can be supplied
through it. -/
theorem captureRegion_no_explicit_geometry :
    (captureRegion none none).args.map Prod.fst = ["display", "copyToClipboard"] ∧
    "explicit_geometry" ∉ (captureRegion none none).args.map Prod.fst ∧
    "explicitGeometry" ∉ (captureRegion none none).args.map Prod.fst ∧
    "geometry" ∉ (captureRegion none none).args.map Prod.fst := by
  decide

/-- C1 (amended): for every choice of the optional `display` and the
optional clipboard flag, `captureRegion` issues the `capture_region`
command whose argument object holds exactly the `display` value and the
clipboard flag defaulted to `true`; the request shape exposes no explicit
geometry parameter. -/
theorem captureRegion_request_shape (d : Option String) (c : Option Bool) :
    (captureRegion d c).cmd = "capture_region" ∧
    (captureRegion d c).args =
      [("display", optStrArg d), ("copyToClipboard", JsonArg.boolVal (c.getD true))] ∧
    (captureRegion d c).args.map Prod.fst = ["display", "copyToClipboard"] := by
  exact ⟨rfl, rfl, rfl⟩

/-- C2 counterexample: `imageUrl` does not reject a path containing a `..`
segment; it produces a fetchable resource URL that still contains the `..`
segment. -/
theorem imageUrl_dotdot_not_rejected :
    hasDotDotSegment "../etc/secret.png" = true ∧
    imageUrl "../etc/secret.png" = "hotshot://localhost/../etc/secret.png" ∧
    hasDotDotSegment (imageUrl "../etc/secret.png") = true := by
  exact ⟨by decide, rfl, by decide⟩

/-- Appending in front of a `/`-headed suffix only adds segments: every
segment of `p` is still a segment of `l ++ '/' :: p`. -/
theorem splitSegs_append_slash (p : List Char) :
    ∀ l : List Char, ∃ X : List (List Char),
      X ≠ [] ∧ splitSegs (l ++ '/' :: p) = X ++ splitSegs p
  | [] => ⟨[[]], by simp, by simp [splitSegs]⟩
  | c :: l => by
    obtain ⟨X, hX, heq⟩ := splitSegs_append_slash p l
    by_cases hc : c = '/'
    · exact ⟨[] :: X, by simp, by simp [splitSegs, hc, heq]⟩
    · match X, hX with
      | x :: X', _ =>
        refine ⟨(c :: x) :: X', by simp, ?_⟩
        have hstep : splitSegs ((c :: l) ++ '/' :: p) =
            match splitSegs (l ++ '/' :: p) with
            | [] => [[c]]
            | seg :: rest' => (c :: seg) :: rest' := by
          simp [splitSegs, hc]
        rw [hstep, heq]
        exact rfl

/-- C2 (amended): `imageUrl` maps every stored relative path `p` to
`hotshot://localhost/` ++ `p` by plain concatenation and performs no
rejection of `..` segments itself: a path containing a `..` segment yields
a URL still containing that segment.  (Keeping stored paths inside
`storage_dir` is therefore an obligation of the store producing the paths,
not of this mapping.) -/
theorem imageUrl_concat_no_rejection (p : String) (hp : hasDotDotSegment p = true) :
    imageUrl p = "hotshot://localhost/" ++ p ∧
    hasDotDotSegment (imageUrl p) = true := by
  refine ⟨rfl, ?_⟩
  have hdata : (imageUrl p).data = "hotshot://localhost".data ++ '/' :: p.data := by
    simp [imageUrl]
  have hmem : ['.', '.'] ∈ splitSegs p.data := by
    simpa [hasDotDotSegment] using hp
  obtain ⟨X, _, heq⟩ := splitSegs_append_slash p.data "hotshot://localhost".data
  have : ['.', '.'] ∈ splitSegs (imageUrl p).data := by
    rw [hdata, heq]
    exact List.mem_append_right X hmem
  simpa [hasDotDotSegment] using this

/-- C2 witness. -/
theorem imageUrl_concat_no_rejection_witness :
    hasDotDotSegment "../gallery/../x.png" = true ∧
    (imageUrl "../gallery/../x.png" = "hotshot://localhost/" ++ "../gallery/../x.png" ∧
      hasDotDotSegment (imageUrl "../gallery/../x.png") = true) :=
  ⟨by decide, imageUrl_concat_no_rejection "../gallery/../x.png" (by decide)⟩

/-- C9: the capture flow is exception-atomic over the UI stores.  Whatever
the outcomes of the capture promise and of the gallery refresh,
`doCapture` completes (models: the catch-all prevents any exception from
propagating) with `isLoading` cleared and the menu closed; and when the
capture promise rejects, the `currentScreenshot`, `currentImageSrc` and
`screenshots` stores are left unchanged. -/
theorem doCapture_exception_atomic {ε : Type} (s : UIState)
    (fnRes fnAny : Except ε Metadata) (refreshRes refreshAny : Except ε (List Metadata))
    (e : ε) (he : fnRes = Except.error e) :
    (doCapture s fnAny refreshAny).isLoading = false ∧
    (doCapture s fnAny refreshAny).menuOpen = false ∧
    (doCapture s fnRes refreshRes).currentScreenshot = s.currentScreenshot ∧
    (doCapture s fnRes refreshRes).currentImageSrc = s.currentImageSrc ∧
    (doCapture s fnRes refreshRes).screenshots = s.screenshots := by
  subst he
  refine ⟨?_, ?_, rfl, rfl, rfl⟩ <;>
    cases fnAny <;> cases refreshAny <;> rfl

/-- A concrete metadata record used by witnesses. -/
def mVal : Metadata :=
  { id := "s1", path := "2024-03/shot.png", timestamp := "2024-03-15T10:00:00Z"
    width := 800, height := 600, format := "png", capture_mode := "fullscreen"
    display_server := "x11", file_size := 1234, tags := [], notes := "" }

/-- C9 witness. -/
theorem doCapture_exception_atomic_witness :
    (Except.error () = (Except.error () : Except Unit Metadata)) ∧
    ((doCapture ⟨true, false, none, "", []⟩ (Except.ok mVal : Except Unit Metadata)
          (Except.ok [mVal])).isLoading = false ∧
      (doCapture ⟨true, false, none, "", []⟩ (Except.ok mVal : Except Unit Metadata)
          (Except.ok [mVal])).menuOpen = false ∧
      (doCapture (⟨true, false, none, "", []⟩ : UIState)
            (Except.error () : Except Unit Metadata)
            (Except.ok [mVal])).currentScreenshot
        = (⟨true, false, none, "", []⟩ : UIState).currentScreenshot ∧
      (doCapture (⟨true, false, none, "", []⟩ : UIState)
            (Except.error () : Except Unit Metadata)
            (Except.ok [mVal])).currentImageSrc
        = (⟨true, false, none, "", []⟩ : UIState).currentImageSrc ∧
      (doCapture (⟨true, false, none, "", []⟩ : UIState)
            (Except.error () : Except Unit Metadata)
            (Except.ok [mVal])).screenshots
        = (⟨true, false, none, "", []⟩ : UIState).screenshots) :=
  ⟨rfl, doCapture_exception_atomic ⟨true, false, none, "", []⟩
    (Except.error () : Except Unit Metadata) (Except.ok mVal)
    (Except.ok [mVal]) (Except.ok [mVal]) () rfl⟩

/-- Rounding is monotone. -/
theorem round_mono_rat {x y : ℚ} (h : x ≤ y) : round x ≤ round y := by
  rw [round_eq, round_eq]
  exact Int.floor_le_floor (by linarith)

/-- C10: for positive container and natural image dimensions the canvas
scale equals `min(containerWidth/imageNatW, containerHeight/imageNatH, 1)`,
is at most `1`, and the rounded display dimensions never exceed the natural
image dimensions. -/
theorem scale_no_upscale (cw ch : ℚ) (nw nh : ℕ)
    (hcw : 0 < cw) (hch : 0 < ch) (hnw : 0 < nw) (hnh : 0 < nh) :
    scale cw ch nw nh = min (min (cw / nw) (ch / nh)) 1 ∧
    scale cw ch nw nh ≤ 1 ∧
    displayW cw ch nw nh ≤ (nw : ℤ) ∧
    displayH cw ch nw nh ≤ (nh : ℤ) := by
  have hguard : ¬ (nw = 0 ∨ nh = 0 ∨ cw = 0 ∨ ch = 0) := by
    push_neg
    exact ⟨hnw.ne', hnh.ne', hcw.ne', hch.ne'⟩
  have hs : scale cw ch nw nh = min (min (cw / nw) (ch / nh)) 1 := by
    rw [scale, if_neg hguard]
  have hle : scale cw ch nw nh ≤ 1 := by
    rw [hs]; exact min_le_right _ _
  have hWmul : (nw : ℚ) * scale cw ch nw nh ≤ (nw : ℚ) := by
    calc (nw : ℚ) * scale cw ch nw nh ≤ (nw : ℚ) * 1 :=
          mul_le_mul_of_nonneg_left hle (Nat.cast_nonneg nw)
      _ = (nw : ℚ) := mul_one _
  have hHmul : (nh : ℚ) * scale cw ch nw nh ≤ (nh : ℚ) := by
    calc (nh : ℚ) * scale cw ch nw nh ≤ (nh : ℚ) * 1 :=
          mul_le_mul_of_nonneg_left hle (Nat.cast_nonneg nh)
      _ = (nh : ℚ) := mul_one _
  refine ⟨hs, hle, ?_, ?_⟩
  · have h1 := round_mono_rat hWmul
    rwa [round_natCast] at h1
  · have h1 := round_mono_rat hHmul
    rwa [round_natCast] at h1

/-- C10 witness. -/
theorem scale_no_upscale_witness :
    (0 : ℚ) < 800 ∧ (0 : ℚ) < 600 ∧ 0 < 1000 ∧ 0 < 500 ∧
    (scale 800 600 1000 500 = min (min ((800 : ℚ) / 1000) ((600 : ℚ) / 500)) 1 ∧
      scale 800 600 1000 500 ≤ 1 ∧
      displayW 800 600 1000 500 ≤ (1000 : ℤ) ∧
      displayH 800 600 1000 500 ≤ (500 : ℤ)) :=
  ⟨by norm_num, by norm_num, by decide, by decide,
    scale_no_upscale 800 600 1000 500 (by norm_num) (by norm_num) (by decide) (by decide)⟩

/-- Lexicographic comparison of character lists by code point, `true` when
the first is less than or equal to the second.  RFC3339 timestamps of equal
format compare chronologically under this order. -/
def charListLe : List Char → List Char → Bool
  | [], _ => true
  | _ :: _, [] => false
  | a :: as, b :: bs =>
    if a.toNat < b.toNat then true
    else if b.toNat < a.toNat then false
    else charListLe as bs

theorem charListLe_total : ∀ x y : List Char, charListLe x y = true ∨ charListLe y x = true
  | [], _ => Or.inl rfl
  | _ :: _, [] => Or.inr rfl
  | a :: as, b :: bs => by
    rcases Nat.lt_trichotomy a.toNat b.toNat with h | h | h
    · left; simp [charListLe, h]
    · rcases charListLe_total as bs with h2 | h2
      · left; simp [charListLe, h, h2]
      · right; simp [charListLe, h, h2]
    · right; simp [charListLe, h]

theorem charListLe_trans : ∀ x y z : List Char,
    charListLe x y = true → charListLe y z = true → charListLe x z = true
  | [], _, _, _, _ => rfl
  | _ :: _, [], _, hxy, _ => by simp [charListLe] at hxy
  | _ :: _, _ :: _, [], _, hyz => by simp [charListLe] at hyz
  | a :: as, b :: bs, c :: cs, hxy, hyz => by
    simp only [charListLe] at hxy hyz ⊢
    rcases Nat.lt_trichotomy a.toNat b.toNat with h₁ | h₁ | h₁
    · rcases Nat.lt_trichotomy b.toNat c.toNat with h₂ | h₂ | h₂
      · simp [show a.toNat < c.toNat by omega]
      · simp [show a.toNat < c.toNat by omega]
      · simp [show ¬ b.toNat < c.toNat by omega, h₂] at hyz
    · rcases Nat.lt_trichotomy b.toNat c.toNat with h₂ | h₂ | h₂
      · simp [show a.toNat < c.toNat by omega]
      · have h4 : charListLe as bs = true := by simpa [h₁] using hxy
        have h5 : charListLe bs cs = true := by simpa [h₂] using hyz
        simp [show a.toNat = c.toNat by omega, charListLe_trans as bs cs h4 h5]
      · simp [show ¬ b.toNat < c.toNat by omega, h₂] at hyz
    · simp [show ¬ a.toNat < b.toNat by omega, h₁] at hxy

/-- Newest-first order on metadata records: `a` precedes `b` when `b`'s
timestamp is at most `a`'s (for RFC3339 timestamps: `a` is at least as
recent as `b`). -/
def newestFirst (a b : Metadata) : Prop :=
  charListLe b.timestamp.data a.timestamp.data = true

instance : DecidableRel newestFirst := fun a b =>
  if h : charListLe b.timestamp.data a.timestamp.data = true then isTrue h else isFalse h

instance : IsTotal Metadata newestFirst :=
  ⟨fun a b => charListLe_total b.timestamp.data a.timestamp.data⟩

instance : IsTrans Metadata newestFirst :=
  ⟨fun a b c hab hbc =>
    charListLe_trans c.timestamp.data b.timestamp.data a.timestamp.data hbc hab⟩

/-- Modelled from the spec: the on-disk metadata store of `hotshot-core`
(the Rust core is not among the frontend sources): the sidecar records,
the stored image files (path paired with bytes) and the trash area. -/
structure Store where
  records : List Metadata
  files : List (String × List Nat)
  trash : List (String × List Nat)
deriving DecidableEq

/-- Modelled from the spec: the store lookup failure `NotFound`. -/
inductive StoreError where
  | NotFound
deriving DecidableEq

/-- Modelled from the spec: `list(limit?)` returns the records sorted
newest-timestamp-first; `limit` caps the count, default unlimited. -/
def Store.list (s : Store) (limit : Option Nat) : List Metadata :=
  let sorted := s.records.insertionSort newestFirst
  match limit with
  | none => sorted
  | some n => sorted.take n

/-- Modelled from the spec: `get(id)` fails `NotFound` when no record
matches the id. -/
def Store.get (s : Store) (i : String) : Except StoreError Metadata :=
  match s.records.find? (fun m => m.id == i) with
  | some m => Except.ok m
  | none => Except.error StoreError.NotFound

/-- Whether the first character list occurs at the start of the second. -/
def beginsWith : List Char → List Char → Bool
  | [], _ => true
  | _ :: _, [] => false
  | a :: as, b :: bs => a == b && beginsWith as bs

/-- Whether the needle occurs contiguously anywhere in the haystack. -/
def containsSeg (needle : List Char) : List Char → Bool
  | [] => needle.isEmpty
  | c :: rest => beginsWith needle (c :: rest) || containsSeg needle rest

/-- Case-insensitive substring test: both sides lowered, then a contiguous
occurrence is searched. -/
def containsCI (q s : String) : Bool :=
  containsSeg (q.data.map Char.toLower) (s.data.map Char.toLower)

/-- Modelled from the spec: a record matches a query when the query is a
case-insensitive substring of any tag, the notes field, or the id. -/
def matchesQuery (q : String) (m : Metadata) : Bool :=
  m.tags.any (fun t => containsCI q t) || containsCI q m.notes || containsCI q m.id

/-- Modelled from the spec: `search(query)` scans the sidecar records,
keeps the matches and returns them newest-first, unranked. -/
def Store.search (s : Store) (q : String) : List Metadata :=
  (s.records.filter (matchesQuery q)).insertionSort newestFirst

/-- Idempotent union of tag sets: append only the given tags not already
present, preserving the existing order. -/
def unionTags (old ts : List String) : List String :=
  ts.foldl (fun acc t => if acc.contains t then acc else acc ++ [t]) old

/-- Modelled from the spec: `tag(id, tags)` adds tags to the existing set
(idempotent union, not replacement), mutating the record in place; fails
`NotFound` if the id is absent. -/
def Store.tag (s : Store) (i : String) (ts : List String) :
    Except StoreError (Store × Metadata) :=
  match s.records.find? (fun m => m.id == i) with
  | none => Except.error StoreError.NotFound
  | some m =>
    let m' := { m with tags := unionTags m.tags ts }
    Except.ok
      ({ s with records := s.records.map (fun r => if r.id == i then m' else r) }, m')

/-- Modelled from the spec: `save(bytes, draft)` writes the image file and
then the sidecar record, returning the stored record. -/
def Store.save (s : Store) (bytes : List Nat) (draft : Metadata) : Store × Metadata :=
  ({ s with files := (draft.path, bytes) :: s.files
            records := draft :: s.records }, draft)

/-- Modelled from the spec: `delete(id)` relocates the image file to the
trash (recoverable soft delete, never an unconditional unlink), drops the
record and returns the pre-delete record; fails `NotFound` if the id is
absent. -/
def Store.delete (s : Store) (i : String) : Except StoreError (Store × Metadata) :=
  match s.records.find? (fun m => m.id == i) with
  | none => Except.error StoreError.NotFound
  | some m =>
    Except.ok
      ({ records := s.records.filter (fun r => !(r.id == i))
         files := s.files.filter (fun f => !(f.1 == m.path))
         trash := s.files.filter (fun f => f.1 == m.path) ++ s.trash }, m)

/-- Inserting an element that precedes every element of the list prepends
it. -/
theorem orderedInsert_of_forall {α : Type} (r : α → α → Prop) [DecidableRel r] (a : α) :
    ∀ l : List α, (∀ c ∈ l, r a c) → l.orderedInsert r a = a :: l
  | [], _ => rfl
  | c :: t, h => List.orderedInsert_of_le r t (h c (List.mem_cons_self c t))

/-- Filtering commutes with ordered insertion into a sorted list. -/
theorem filter_orderedInsert {α : Type} (r : α → α → Prop) [DecidableRel r] [IsTrans α r]
    (p : α → Bool) (a : α) :
    ∀ l : List α, l.Sorted r →
      (l.orderedInsert r a).filter p =
        if p a then (l.filter p).orderedInsert r a else l.filter p
  | [], _ => by
    cases hp : p a <;> simp [List.orderedInsert, hp]
  | b :: l, hs => by
    have hbl : ∀ c ∈ l, r b c := (List.sorted_cons.mp hs).1
    have hl : l.Sorted r := (List.sorted_cons.mp hs).2
    by_cases hab : r a b
    · rw [List.orderedInsert_of_le r l hab]
      cases hp : p a
      · simp [List.filter_cons, hp]
      · have hall : ∀ c ∈ (b :: l).filter p, r a c := by
          intro c hc
          rcases List.mem_cons.mp (List.mem_of_mem_filter hc) with rfl | hcl
          · exact hab
          · exact IsTrans.trans a b c hab (hbl c hcl)
        rw [orderedInsert_of_forall r a _ hall]
        simp [List.filter_cons, hp]
    · have hstep : (b :: l).orderedInsert r a = b :: l.orderedInsert r a := by
        simp [List.orderedInsert, hab]
      rw [hstep]
      have IH := filter_orderedInsert r p a l hl
      cases hp : p a <;> cases hpb : p b <;>
        simp [List.filter_cons, hp, hpb, IH, List.orderedInsert, hab]

/-- Filtering commutes with insertion sort. -/
theorem filter_insertionSort {α : Type} (r : α → α → Prop) [DecidableRel r]
    [IsTotal α r] [IsTrans α r] (p : α → Bool) :
    ∀ l : List α, (l.insertionSort r).filter p = (l.filter p).insertionSort r
  | [] => rfl
  | a :: l => by
    have IH := filter_insertionSort r p l
    have hsorted := List.sorted_insertionSort r l
    cases hp : p a
    · calc ((a :: l).insertionSort r).filter p
          = ((l.insertionSort r).orderedInsert r a).filter p := rfl
        _ = (l.insertionSort r).filter p := by
            rw [filter_orderedInsert r p a _ hsorted, if_neg (by simp [hp])]
        _ = (l.filter p).insertionSort r := IH
        _ = ((a :: l).filter p).insertionSort r := by
            simp [List.filter_cons, hp]
    · calc ((a :: l).insertionSort r).filter p
          = ((l.insertionSort r).orderedInsert r a).filter p := rfl
        _ = ((l.insertionSort r).filter p).orderedInsert r a := by
            rw [filter_orderedInsert r p a _ hsorted, if_pos (by simp [hp])]
        _ = ((l.filter p).insertionSort r).orderedInsert r a := by rw [IH]
        _ = ((a :: l).filter p).insertionSort r := by
            simp [List.filter_cons, hp, List.insertionSort]

/-- C7: `list` returns the records sorted newest-timestamp-first; with a
limit the result is a prefix of the full sorted sequence of length at most
the limit, still sorted; without a limit every record is returned (the
result is a permutation of the stored records). -/
theorem list_sorted_limit (s : Store) (n : Nat) :
    List.Sorted newestFirst (Store.list s none) ∧
    List.Perm (Store.list s none) s.records ∧
    Store.list s (some n) = (Store.list s none).take n ∧
    (Store.list s (some n)).length ≤ n ∧
    List.IsPrefix (Store.list s (some n)) (Store.list s none) ∧
    List.Sorted newestFirst (Store.list s (some n)) := by
  refine ⟨List.sorted_insertionSort newestFirst s.records,
    List.perm_insertionSort newestFirst s.records, rfl, ?_, ?_, ?_⟩
  · show ((s.records.insertionSort newestFirst).take n).length ≤ n
    rw [List.length_take]
    exact min_le_left n _
  · exact List.take_prefix n _
  · exact List.Pairwise.sublist (List.take_sublist n _)
      (List.sorted_insertionSort newestFirst s.records)

/-- C6: `search` returns exactly the records of which the query is a
case-insensitive substring of some tag, of the notes field, or of the id,
and returns them in the same newest-first order as `list` (it equals the
filtered `list` output). -/
theorem search_matches_list_order (s : Store) (q : String) (m : Metadata) :
    Store.search s q = (Store.list s none).filter (matchesQuery q) ∧
    (m ∈ Store.search s q ↔
      m ∈ s.records ∧
        ((∃ t ∈ m.tags, containsCI q t = true) ∨ containsCI q m.notes = true ∨
          containsCI q m.id = true)) := by
  constructor
  · show (s.records.filter (matchesQuery q)).insertionSort newestFirst
      = (s.records.insertionSort newestFirst).filter (matchesQuery q)
    exact (filter_insertionSort newestFirst (matchesQuery q) s.records).symm
  · constructor
    · intro hm
      have h1 : m ∈ s.records.filter (matchesQuery q) := by
        simpa [Store.search, List.mem_insertionSort] using hm
      obtain ⟨hmem, hmatch⟩ := List.mem_filter.mp h1
      refine ⟨hmem, ?_⟩
      simpa [matchesQuery, List.any_eq_true, Bool.or_eq_true, or_assoc] using hmatch
    · rintro ⟨hmem, hmatch⟩
      have hq : matchesQuery q m = true := by
        simp only [matchesQuery, List.any_eq_true, Bool.or_eq_true, or_assoc]
        exact hmatch
      have : m ∈ s.records.filter (matchesQuery q) := List.mem_filter.mpr ⟨hmem, hq⟩
      simpa [Store.search, List.mem_insertionSort] using this

/-- C4: `save` followed immediately by `get` with the returned id yields a
record equal in every field to the one `save` returned. -/
theorem save_then_get (s : Store) (bytes : List Nat) (draft : Metadata) :
    Store.get (Store.save s bytes draft).1 ((Store.save s bytes draft).2).id =
      Except.ok (Store.save s bytes draft).2 := by
  show Store.get { s with files := (draft.path, bytes) :: s.files
                          records := draft :: s.records } draft.id = Except.ok draft
  unfold Store.get
  rw [List.find?_cons_of_pos _ (by simp)]

/-- In-place replacement of the record with the given id. -/
def updateRecord (s : Store) (i : String) (m' : Metadata) : Store :=
  { s with records := s.records.map (fun r => if r.id == i then m' else r) }

/-- A record with tags extended by idempotent union. -/
def withTags (m : Metadata) (ts : List String) : Metadata :=
  { m with tags := unionTags m.tags ts }

/-- After mapping an id-preserving in-place update over the records, a
lookup by that id returns the updated record, provided the id was present. -/
theorem find?_update (i : String) (mNew : Metadata) (hnew : (mNew.id == i) = true) :
    ∀ l : List Metadata, (l.find? (fun r => r.id == i)).isSome = true →
      (l.map (fun r => if r.id == i then mNew else r)).find? (fun r => r.id == i) =
        some mNew
  | [], h => by simp [List.find?] at h
  | a :: t, h => by
    by_cases ha : (a.id == i) = true
    · simp only [List.map_cons, if_pos ha]
      exact List.find?_cons_of_pos (p := fun r : Metadata => r.id == i) _ hnew
    · simp only [List.map_cons, if_neg ha]
      rw [List.find?_cons_of_neg (p := fun r : Metadata => r.id == i) _ ha]
      refine find?_update i mNew hnew t ?_
      rwa [List.find?_cons_of_neg (p := fun r : Metadata => r.id == i) _ ha] at h

/-- Unfolding of `tag` on a present id. -/
theorem tag_found (s : Store) (i : String) (m : Metadata) (ts : List String)
    (hfind : s.records.find? (fun r => r.id == i) = some m) :
    Store.tag s i ts = Except.ok (updateRecord s i (withTags m ts), withTags m ts) := by
  unfold Store.tag
  rw [hfind]
  rfl

/-- Unfolding of `tag` on an absent id. -/
theorem tag_notfound (s : Store) (i : String) (ts : List String)
    (habs : s.records.find? (fun r => r.id == i) = none) :
    Store.tag s i ts = Except.error StoreError.NotFound := by
  unfold Store.tag
  rw [habs]

/-- C3: on a record starting with no tags, `tag(id, ["a"])` followed by
`tag(id, ["a","b"])` leaves exactly the tag list `["a","b"]` (idempotent
union, never duplicating); on a store where the id is absent, `tag` fails
with `NotFound`. -/
theorem tag_idempotent_union (s sAbsent : Store) (i : String) (m : Metadata)
    (hfind : s.records.find? (fun r => r.id == i) = some m)
    (hempty : m.tags = [])
    (habsent : sAbsent.records.find? (fun r => r.id == i) = none) :
    (∃ s₁ m₁, Store.tag s i ["a"] = Except.ok (s₁, m₁) ∧ m₁.tags = ["a"] ∧
      ∃ s₂ m₂, Store.tag s₁ i ["a", "b"] = Except.ok (s₂, m₂) ∧
        m₂.tags = ["a", "b"] ∧ m₂.tags.Nodup) ∧
    Store.tag sAbsent i ["a"] = Except.error StoreError.NotFound := by
  have hid : (m.id == i) = true :=
    List.find?_some (p := fun r : Metadata => r.id == i) hfind
  have htags₁ : (withTags m ["a"]).tags = ["a"] := by
    show unionTags m.tags ["a"] = ["a"]
    rw [hempty]
    decide
  constructor
  · refine ⟨updateRecord s i (withTags m ["a"]), withTags m ["a"],
      tag_found s i m ["a"] hfind, htags₁, ?_⟩
    have hfind₁ : (updateRecord s i (withTags m ["a"])).records.find?
        (fun r => r.id == i) = some (withTags m ["a"]) := by
      apply find?_update i (withTags m ["a"]) hid s.records
      rw [hfind]
      rfl
    refine ⟨_, _, tag_found _ i _ ["a", "b"] hfind₁, ?_, ?_⟩
    · show unionTags (withTags m ["a"]).tags ["a", "b"] = ["a", "b"]
      rw [htags₁]
      decide
    · show (unionTags (withTags m ["a"]).tags ["a", "b"]).Nodup
      rw [htags₁]
      decide
  · exact tag_notfound sAbsent i ["a"] habsent

/-- C3 witness. -/
theorem tag_idempotent_union_witness :
    (Store.records ⟨[mVal], [], []⟩ |>.find? (fun r => r.id == "s1")) = some mVal ∧
    mVal.tags = [] ∧
    (Store.records ⟨[], [], []⟩ |>.find? (fun r => r.id == "s1")) = none ∧
    ((∃ s₁ m₁, Store.tag ⟨[mVal], [], []⟩ "s1" ["a"] = Except.ok (s₁, m₁) ∧
        m₁.tags = ["a"] ∧
        ∃ s₂ m₂, Store.tag s₁ "s1" ["a", "b"] = Except.ok (s₂, m₂) ∧
          m₂.tags = ["a", "b"] ∧ m₂.tags.Nodup) ∧
      Store.tag ⟨[], [], []⟩ "s1" ["a"] = Except.error StoreError.NotFound) :=
  ⟨by decide, rfl, rfl,
    tag_idempotent_union ⟨[mVal], [], []⟩ ⟨[], [], []⟩ "s1" mVal (by decide) rfl rfl⟩

/-- C5: deleting a present id returns the pre-delete record, a subsequent
lookup fails with `NotFound`, and any stored image bytes under the
record's path are still present in the trash (the file is relocated, not
destroyed). -/
theorem delete_soft_recoverable (s : Store) (i : String) (m : Metadata)
    (pb : String × List Nat)
    (hget : Store.get s i = Except.ok m) (hpb : pb ∈ s.files) (hpath : pb.1 = m.path) :
    ∃ s', Store.delete s i = Except.ok (s', m) ∧
      Store.get s' i = Except.error StoreError.NotFound ∧
      pb ∈ s'.trash := by
  have hfind : s.records.find? (fun r => r.id == i) = some m := by
    unfold Store.get at hget
    cases hf : s.records.find? (fun r => r.id == i) with
    | none => rw [hf] at hget; exact absurd hget (by simp)
    | some m' =>
      rw [hf] at hget
      obtain rfl : m' = m := by simpa using hget
      rfl
  refine ⟨⟨s.records.filter (fun r => !(r.id == i)),
    s.files.filter (fun f => !(f.1 == m.path)),
    s.files.filter (fun f => f.1 == m.path) ++ s.trash⟩, ?_, ?_, ?_⟩
  · unfold Store.delete
    rw [hfind]
  · unfold Store.get
    have hnone : (s.records.filter (fun r => !(r.id == i))).find?
        (fun r => r.id == i) = none := by
      refine List.find?_eq_none.mpr ?_
      intro x hx
      have hkeep := (List.mem_filter.mp hx).2
      simp only [Bool.not_eq_true'] at hkeep
      simp [hkeep]
    rw [hnone]
  · show pb ∈ s.files.filter (fun f => f.1 == m.path) ++ s.trash
    exact List.mem_append_left _ (List.mem_filter.mpr ⟨hpb, by simp [hpath]⟩)

/-- C5 witness. -/
theorem delete_soft_recoverable_witness :
    Store.get ⟨[mVal], [("2024-03/shot.png", [7, 7])], []⟩ "s1" = Except.ok mVal ∧
    ("2024-03/shot.png", [7, 7]) ∈
      (⟨[mVal], [("2024-03/shot.png", [7, 7])], []⟩ : Store).files ∧
    ("2024-03/shot.png", ([7, 7] : List Nat)).1 = mVal.path ∧
    (∃ s', Store.delete ⟨[mVal], [("2024-03/shot.png", [7, 7])], []⟩ "s1"
        = Except.ok (s', mVal) ∧
      Store.get s' "s1" = Except.error StoreError.NotFound ∧
      ("2024-03/shot.png", [7, 7]) ∈ s'.trash) :=
  ⟨rfl, by decide, rfl,
    delete_soft_recoverable ⟨[mVal], [("2024-03/shot.png", [7, 7])], []⟩ "s1" mVal
      ("2024-03/shot.png", [7, 7]) rfl (by decide) rfl⟩

/-- Decode a list of decimal digit characters into a number. -/
def decodeDigits (ds : List Char) : Nat :=
  ds.foldl (fun n c => n * 10 + (c.toNat - 48)) 0

/-- Parse a non-empty, all-digit decimal string. -/
def parseIndex (s : String) : Option Nat :=
  if s.data.isEmpty then none
  else if s.data.all Char.isDigit then some (decodeDigits s.data)
  else none

/-- Modelled from the spec: monitor resolution for the `display` selector
performed by the Rust core (not among the frontend sources): a monitor is
identified by its exact, case-sensitive name, or failing that by a
zero-based decimal index into the enumerated ordering. -/
def resolveMonitor (monitors : List Monitor) (sel : String) : Option Monitor :=
  match monitors.find? (fun m => m.name == sel) with
  | some m => some m
  | none =>
    match parseIndex sel with
    | some i => monitors[i]?
    | none => none

theorem digitChar_isDigit (m : Nat) (h : m < 10) : (Nat.digitChar m).isDigit = true := by
  interval_cases m <;> decide

theorem digitChar_toNat (m : Nat) (h : m < 10) : (Nat.digitChar m).toNat - 48 = m := by
  interval_cases m <;> decide

theorem toDigitsCore_append : ∀ (f n : Nat) (acc : List Char),
    Nat.toDigitsCore 10 f n acc = Nat.toDigitsCore 10 f n [] ++ acc
  | 0, _, _ => rfl
  | f + 1, n, acc => by
    by_cases h : n / 10 = 0
    · simp [Nat.toDigitsCore, h]
    · simp only [Nat.toDigitsCore, h, if_false]
      rw [toDigitsCore_append f (n / 10) (Nat.digitChar (n % 10) :: acc),
        toDigitsCore_append f (n / 10) [Nat.digitChar (n % 10)], List.append_assoc]
      rfl

theorem toDigitsCore_fuel : ∀ (f g n : Nat), n < f → n < g →
    Nat.toDigitsCore 10 f n [] = Nat.toDigitsCore 10 g n []
  | 0, _, n, hf, _ => absurd hf (Nat.not_lt_zero n)
  | _ + 1, 0, n, _, hg => absurd hg (Nat.not_lt_zero n)
  | f + 1, g + 1, n, hf, hg => by
    by_cases h : n / 10 = 0
    · simp [Nat.toDigitsCore, h]
    · have hdiv : n / 10 < n := Nat.div_lt_self (by omega) (by omega)
      simp only [Nat.toDigitsCore, h, if_false]
      rw [toDigitsCore_append f (n / 10) [Nat.digitChar (n % 10)],
        toDigitsCore_append g (n / 10) [Nat.digitChar (n % 10)],
        toDigitsCore_fuel f g (n / 10) (by omega) (by omega)]

/-- One unfolding step of `Nat.toDigits` at base 10. -/
theorem toDigits_step (n : Nat) :
    Nat.toDigits 10 n =
      if n < 10 then [Nat.digitChar n]
      else Nat.toDigits 10 (n / 10) ++ [Nat.digitChar (n % 10)] := by
  by_cases h : n / 10 = 0
  · have h10 : n < 10 := by omega
    rw [if_pos h10]
    show Nat.toDigitsCore 10 (n + 1) n [] = _
    simp [Nat.toDigitsCore, h, Nat.mod_eq_of_lt h10]
  · have h10 : ¬ n < 10 := by omega
    rw [if_neg h10]
    show Nat.toDigitsCore 10 (n + 1) n [] = _
    simp only [Nat.toDigitsCore, h, if_false]
    rw [toDigitsCore_append n (n / 10) [Nat.digitChar (n % 10)]]
    congr 1
    exact toDigitsCore_fuel n (n / 10 + 1) (n / 10)
      (Nat.div_lt_self (by omega) (by omega)) (Nat.lt_succ_self _)

theorem decodeDigits_append (l : List Char) (c : Char) :
    decodeDigits (l ++ [c]) = decodeDigits l * 10 + (c.toNat - 48) := by
  simp [decodeDigits, List.foldl_append]

/-- The decimal digit list of a number is non-empty, all digits, and
decodes back to the number. -/
theorem toDigits_spec (n : Nat) :
    Nat.toDigits 10 n ≠ [] ∧
    (∀ c ∈ Nat.toDigits 10 n, c.isDigit = true) ∧
    decodeDigits (Nat.toDigits 10 n) = n := by
  induction n using Nat.strong_induction_on with
  | _ n ih =>
    rw [toDigits_step n]
    by_cases h : n < 10
    · rw [if_pos h]
      refine ⟨by simp, ?_, ?_⟩
      · intro c hc
        rw [List.mem_singleton] at hc
        subst hc
        exact digitChar_isDigit n h
      · show decodeDigits [Nat.digitChar n] = n
        have : decodeDigits [Nat.digitChar n] = (Nat.digitChar n).toNat - 48 := by
          simp [decodeDigits]
        rw [this, digitChar_toNat n h]
    · rw [if_neg h]
      have hdiv : n / 10 < n := Nat.div_lt_self (by omega) (by omega)
      obtain ⟨hne, hdig, hdec⟩ := ih (n / 10) hdiv
      refine ⟨by simp, ?_, ?_⟩
      · intro c hc
        rcases List.mem_append.mp hc with hc | hc
        · exact hdig c hc
        · rw [List.mem_singleton] at hc
          subst hc
          exact digitChar_isDigit _ (Nat.mod_lt n (by omega))
      · rw [decodeDigits_append, hdec, digitChar_toNat _ (Nat.mod_lt n (by omega))]
        omega

/-- Parsing inverts decimal printing. -/
theorem parseIndex_toString (n : Nat) : parseIndex (toString n) = some n := by
  obtain ⟨hne, hdig, hdec⟩ := toDigits_spec n
  have hdata : (toString n).data = Nat.toDigits 10 n := rfl
  unfold parseIndex
  rw [hdata, if_neg (by simp [List.isEmpty_iff, hne]), if_pos (List.all_eq_true.mpr hdig),
    hdec]

/-- Under distinct monitor names, lookup by a member's name finds exactly
that member. -/
theorem find?_name_of_nodup (m : Monitor) :
    ∀ l : List Monitor, m ∈ l → (l.map Monitor.name).Nodup →
      l.find? (fun m' => m'.name == m.name) = some m
  | [], hm, _ => absurd hm (List.not_mem_nil m)
  | a :: t, hm, hnd => by
    rcases List.mem_cons.mp hm with rfl | hmt
    · exact List.find?_cons_of_pos (p := fun x : Monitor => x.name == m.name) _ (by simp)
    · have hanames : a.name ∉ t.map Monitor.name := (List.nodup_cons.mp hnd).1
      have hne : ¬ ((a.name == m.name) = true) := by
        intro hbeq
        have heq : a.name = m.name := by simpa using hbeq
        refine hanames ?_
        rw [heq]
        exact List.mem_map_of_mem Monitor.name hmt
      rw [List.find?_cons_of_neg (p := fun x : Monitor => x.name == m.name) _ hne]
      exact find?_name_of_nodup m t hmt (List.nodup_cons.mp hnd).2

/-- C8: a monitor is identified by its exact case-sensitive name, or by
its zero-based index into the enumerated ordering; and the `i`-th
per-monitor capture menu entry issues a fullscreen capture whose `display`
argument is the decimal string of the zero-based index `i`, which (when no
monitor bears that string as a name) resolves back to monitor `i`. -/
theorem monitor_identification (monitors : List Monitor) (i : Nat) (m : Monitor)
    (h : i < monitors.length)
    (hname : ∀ m' ∈ monitors, m'.name ≠ toString i)
    (hm : m ∈ monitors) (hnodup : (monitors.map Monitor.name).Nodup) :
    (monitorCaptureEntries monitors)[i]? =
      some (captureFullscreen (some (toString i)) none) ∧
    (captureFullscreen (some (toString i)) none).args =
      [("display", JsonArg.str (toString i)),
       ("copyToClipboard", JsonArg.boolVal true)] ∧
    resolveMonitor monitors (toString i) = some (monitors.get ⟨i, h⟩) ∧
    resolveMonitor monitors m.name = some m := by
  refine ⟨?_, rfl, ?_, ?_⟩
  · unfold monitorCaptureEntries
    rw [List.getElem?_map, show monitors.enum = monitors.enumFrom 0 from rfl,
      List.getElem?_enumFrom, List.getElem?_eq_getElem h]
    simp
  · unfold resolveMonitor
    have hfind : monitors.find? (fun m' => m'.name == toString i) = none := by
      refine List.find?_eq_none.mpr ?_
      intro x hx hbeq
      exact hname x hx (by simpa using hbeq)
    rw [hfind, parseIndex_toString]
    show monitors[i]? = some (monitors.get ⟨i, h⟩)
    rw [List.getElem?_eq_getElem h]
    rfl
  · unfold resolveMonitor
    rw [find?_name_of_nodup m monitors hm hnodup]

/-- A concrete monitor list used by the C8 witness. -/
def wMons : List Monitor :=
  [⟨"HDMI-1", 0, 0, 1920, 1080⟩, ⟨"eDP-1", 1920, 0, 1280, 1024⟩]

/-- C8 witness. -/
theorem monitor_identification_witness :
    (monitorCaptureEntries wMons)[1]? =
      some (captureFullscreen (some (toString 1)) none) ∧
    (captureFullscreen (some (toString 1)) none).args =
      [("display", JsonArg.str (toString 1)),
       ("copyToClipboard", JsonArg.boolVal true)] ∧
    resolveMonitor wMons (toString 1) = some (wMons.get ⟨1, by decide⟩) ∧
    resolveMonitor wMons (Monitor.name ⟨"HDMI-1", 0, 0, 1920, 1080⟩) =
      some ⟨"HDMI-1", 0, 0, 1920, 1080⟩ :=
  monitor_identification wMons 1 ⟨"HDMI-1", 0, 0, 1920, 1080⟩ (by decide)
    (by decide) (by decide) (by decide)
